import Mathlib

/-!
Verification of the `Embedding` module of the notebook
`src/bert-initial-paper/Interactive Implementation.ipynb`.

The notebook defines (cell 14):

```
class Embedding(nn.Module):
    def __init__(self, vocab_size, maxlen, d_model):
        super(Embedding, self).__init__()
        self.tokenizer = BertTokenizer.from_pretrained("bert-base-uncased")
        self.bert_model = BertModel.from_pretrained("bert-base-uncased")
        self.d_model = d_model
        self.pos_embed = nn.Embedding(maxlen, d_model)
        self.seg_embed = nn.Embedding(2, d_model)
        self.norm = nn.LayerNorm(d_model)

    def forward(self, x):
        tokens = self.tokenizer(x, return_tensors='pt', padding='max_length',
                                truncation=True, max_length=self.d_model)['input_ids']
        seq_len = tokens.size(1)
        pos = torch.arange(seq_len, dtype=torch.long, device=tokens.device)
        pos = pos.unsqueeze(0).expand_as(tokens)
        segments = torch.zeros_like(tokens)
        token_embeddings = self.bert_model(tokens)[0]
        embedding = token_embeddings + self.pos_embed(pos) + self.seg_embed(segments)
        return self.norm(embedding)
```

The shallow embedding below represents tensors as nested lists over `ℤ`.
The two external collaborators (the Hugging Face tokenizer and the pretrained
BERT encoder) are library black boxes whose code is not part of this
repository; they are modelled from the spec as abstract fields of the
structure, with the tokenizer's pad/truncate contract made explicit.
Table lookups (`nn.Embedding.forward`) and tensor addition are fallible:
they return `none` on an out-of-range index or a shape mismatch, and
`Embedding.forward` surfaces these as tagged errors, mirroring the torch
exceptions (`IndexError` from an embedding lookup, broadcast failure from
`+`), in the evaluation order of the Python expression.
-/

/-- The kind of runtime error `forward` can raise:
an index-out-of-range error in the position-table lookup, one in the
segment-table lookup, or a shape mismatch in the elementwise addition. -/
inductive Err where
  | posIndexOutOfRange
  | segIndexOutOfRange
  | shapeMismatch
  deriving DecidableEq, Repr

/-- Modelled from the spec: the Subword Tokenizer (the Hugging Face
`BertTokenizer`, not part of this repository) maps each raw string to a
sequence of integer subword identifiers (`rawIds`) and owns a padding
token identifier (`padId`). -/
structure Tokenizer where
  rawIds : String → List ℕ
  padId : ℕ

/-- Modelled from the spec: a call
`tokenizer(s, padding='max_length', truncation=True, max_length=m)` pads
shorter sequences and truncates longer ones so the result has length
exactly `m`. -/
def Tokenizer.encodeOne (t : Tokenizer) (maxLength : ℕ) (s : String) : List ℕ :=
  (t.rawIds s).take maxLength ++ List.replicate (maxLength - (t.rawIds s).length) t.padId

/-- Modelled from the spec: calling the tokenizer on a batch of raw strings
returns the `input_ids` matrix, one fixed-length row per string. -/
def Tokenizer.call (t : Tokenizer) (maxLength : ℕ) (x : List String) : List (List ℕ) :=
  x.map (t.encodeOne maxLength)

/-- The `Embedding` instance after `__init__` has run: the two external
collaborators, the stored hidden width `d_model`, the two owned lookup
tables (`nn.Embedding` weight matrices, one row per index), and the
normalization transform (`nn.LayerNorm(d_model)`, modelled abstractly as a
per-position vector transform since its mean/variance arithmetic is
irrational and irrelevant to every claim). -/
structure Embedding where
  tokenizer : Tokenizer
  bert_model : List (List ℕ) → List (List (List ℤ))
  d_model : ℕ
  pos_embed : List (List ℤ)
  seg_embed : List (List ℤ)
  norm : List ℤ → List ℤ

/-- The weight matrix of a freshly constructed `nn.Embedding(rows, cols)`:
`rows` rows of width `cols`, entries drawn from the (externally supplied)
initializer `w`. -/
def mkTable (rows cols : ℕ) (w : ℕ → ℕ → ℤ) : List (List ℤ) :=
  (List.range rows).map (fun i => (List.range cols).map (fun j => w i j))

/-- `Embedding.__init__(vocab_size, maxlen, d_model)`: stores the tokenizer,
the pretrained model, `d_model`, a `maxlen × d_model` position table, a
`2 × d_model` segment table and the normalization transform. The source
accepts `vocab_size` but never reads it, which this definition mirrors. -/
def Embedding.init (vocab_size maxlen d_model : ℕ) (tok : Tokenizer)
    (bert : List (List ℕ) → List (List (List ℤ)))
    (posW segW : ℕ → ℕ → ℤ) (normF : List ℤ → List ℤ) : Embedding :=
  { tokenizer := tok
    bert_model := bert
    d_model := d_model
    pos_embed := mkTable maxlen d_model posW
    seg_embed := mkTable 2 d_model segW
    norm := normF }

/-- Line `tokens = self.tokenizer(x, ..., max_length=self.d_model)['input_ids']`:
note the source passes `self.d_model`, not `maxlen`, as the tokenizer's
maximum length. -/
def Embedding.tokens (e : Embedding) (x : List String) : List (List ℕ) :=
  e.tokenizer.call e.d_model x

/-- `tokens.size(1)`: the common row length of the (rectangular) token
matrix, read off its first row. -/
def batchSeqLen : List (List ℕ) → ℕ
  | [] => 0
  | r :: _ => r.length

/-- `seq_len = tokens.size(1)`. -/
def Embedding.seqLen (e : Embedding) (x : List String) : ℕ :=
  batchSeqLen (e.tokens x)

/-- Lines `pos = torch.arange(seq_len, ...)` and
`pos = pos.unsqueeze(0).expand_as(tokens)`: every row of the position-id
matrix is `[0, 1, ..., seq_len - 1]`, one row per batch element. -/
def Embedding.posIds (e : Embedding) (x : List String) : List (List ℕ) :=
  (e.tokens x).map (fun _ => List.range (e.seqLen x))

/-- Line `segments = torch.zeros_like(tokens)`: an all-zero matrix of the
same shape as the token matrix. -/
def Embedding.segIds (e : Embedding) (x : List String) : List (List ℕ) :=
  (e.tokens x).map (fun row => row.map (fun _ => 0))

/-- Fallible map over a list (`mapM` in the `Option` monad, written
structurally): `some` of the image when `f` succeeds on every element,
`none` as soon as it fails on one. -/
def mapOpt {α β : Type} (f : α → Option β) : List α → Option (List β)
  | [] => some []
  | a :: as => do
      let b ← f a
      let bs ← mapOpt f as
      pure (b :: bs)

/-- `nn.Embedding.forward` applied to a matrix of indices: replace each
index by the corresponding table row; `none` models the `IndexError`
raised when an index is outside the table. -/
def tableLookup (table : List (List ℤ)) (ids : List (List ℕ)) :
    Option (List (List (List ℤ))) :=
  mapOpt (fun row => mapOpt (fun i => table.get? i) row) ids

/-- Length-strict `zipWith` for a fallible combiner: `none` when the two
lists disagree in length or the combiner fails on some pair. This models
torch elementwise `+`, which raises on mismatched operand shapes (the
claims never exercise singleton-dimension broadcasting, which is
therefore not modelled). -/
def zipStrict {α β γ : Type} (f : α → β → Option γ) :
    List α → List β → Option (List γ)
  | [], [] => some []
  | a :: as, b :: bs => do
      let c ← f a b
      let cs ← zipStrict f as bs
      pure (c :: cs)
  | _, _ => none

/-- Elementwise sum of two vectors, `none` on a length mismatch. -/
def vecAdd (a b : List ℤ) : Option (List ℤ) :=
  zipStrict (fun p q => some (p + q)) a b

/-- Elementwise sum of two matrices, `none` on a shape mismatch. -/
def matAdd (a b : List (List ℤ)) : Option (List (List ℤ)) :=
  zipStrict vecAdd a b

/-- Elementwise sum of two rank-3 tensors, `none` on a shape mismatch. -/
def tenAdd (a b : List (List (List ℤ))) : Option (List (List (List ℤ))) :=
  zipStrict matAdd a b

/-- `Embedding.forward(x)`. The steps and their order follow the source:
tokenize with `max_length=self.d_model`, build `pos` and `segments`,
run the pretrained encoder, then evaluate
`token_embeddings + self.pos_embed(pos) + self.seg_embed(segments)`
left to right (so the position lookup is the first fallible step, the
first addition the second, the segment lookup the third), and finally
apply the normalization transform per token position. -/
def Embedding.forward (e : Embedding) (x : List String) :
    Except Err (List (List (List ℤ))) :=
  match tableLookup e.pos_embed (e.posIds x) with
  | none => .error .posIndexOutOfRange
  | some pe =>
    match tenAdd (e.bert_model (e.tokens x)) pe with
    | none => .error .shapeMismatch
    | some s1 =>
      match tableLookup e.seg_embed (e.segIds x) with
      | none => .error .segIndexOutOfRange
      | some se =>
        match tenAdd s1 se with
        | none => .error .shapeMismatch
        | some s2 => .ok (s2.map (fun mat => mat.map e.norm))

/-- `forward` as a state-passing call on the module instance: the method
body of the source only reads `self`'s fields and assigns none of them, so
the post-call instance is the pre-call instance unchanged. -/
def Embedding.forwardS (e : Embedding) (x : List String) :
    Except Err (List (List (List ℤ))) × Embedding :=
  (e.forward x, e)

/-- Modelled from the spec: the composed embedding of batch element `b` at
token position `i` is the normalization transform applied to the
elementwise sum of the encoder's hidden vector for `(b, i)`, row `i` of
the position table, and row `0` of the segment table. -/
def composedEmbeddingSpec (e : Embedding) (x : List String) (b i : ℕ) :
    Option (List ℤ) := do
  let tb ← ((e.bert_model (e.tokens x)).get? b).bind (fun r => r.get? i)
  let pr ← e.pos_embed.get? i
  let sr ← e.seg_embed.get? 0
  let s1 ← vecAdd tb pr
  let s2 ← vecAdd s1 sr
  pure (e.norm s2)

/-- The shape `(batch, rows of first element, width of first vector)` of a
rank-3 tensor, used to state concrete shape evaluations. -/
def shape3 (t : List (List (List ℤ))) : ℕ × ℕ × ℕ :=
  (t.length, (t.headD []).length, ((t.headD []).headD []).length)

/-- A concrete stub tokenizer: three subword identifiers for any input,
padding identifier `0`. -/
def tokDemo : Tokenizer := { rawIds := fun _ => [7, 7, 7], padId := 0 }

/-- A concrete stub pretrained encoder of hidden width 4: the hidden
vector of a token is determined by its identifier. -/
def bertDemo : List (List ℕ) → List (List (List ℤ)) :=
  fun tokens => tokens.map (fun row => row.map (fun tid => [(tid : ℤ), 1, 0, 0]))

/-- The spec's example configuration: `Embedding(vocab_size, maxlen=5,
d_model=4)` with concrete stub collaborators, position-table row `i`
constantly `i`, segment-table row `i` constantly `i`, and the
normalization transform held at the identity. -/
def embDemo : Embedding :=
  Embedding.init 30522 5 4 tokDemo bertDemo (fun i _ => (i : ℤ)) (fun i _ => (i : ℤ)) id

/-- The spec's example input batch. -/
def demoX : List String := ["the cat sat"]

/-- The output `embDemo.forward demoX` computes to. -/
def demoY : List (List (List ℤ)) :=
  [[[7, 1, 0, 0], [8, 2, 1, 1], [9, 3, 2, 2], [3, 4, 3, 3]]]

/-- A stub tokenizer producing a single subword identifier. -/
def tokDemo2 : Tokenizer := { rawIds := fun _ => [7], padId := 0 }

/-- An instance with `d_model = 2` exceeding `maxlen = 1`, exercising the
position-table lookup failure. -/
def embDemo2 : Embedding :=
  Embedding.init 30522 1 2 tokDemo2 bertDemo (fun i _ => (i : ℤ)) (fun i _ => (i : ℤ)) id

/-- Padding/truncation always yields a sequence of length exactly the
requested maximum length. -/
theorem Tokenizer.encodeOne_length (t : Tokenizer) (m : ℕ) (s : String) :
    (t.encodeOne m s).length = m := by
  simp [Tokenizer.encodeOne]
  omega

/-- Row `b` of the token matrix is the encoding of the `b`-th raw string. -/
theorem Embedding.tokens_get? (e : Embedding) (x : List String) (b : ℕ) :
    (e.tokens x).get? b = (x.get? b).map (e.tokenizer.encodeOne e.d_model) := by
  simp [Embedding.tokens, Tokenizer.call, List.get?_map]

/-- On a nonempty batch, `seq_len` is exactly `self.d_model`, because the
source tokenizes with `max_length=self.d_model`. -/
theorem Embedding.seqLen_of_ne_nil (e : Embedding) (x : List String) (hx : x ≠ []) :
    e.seqLen x = e.d_model := by
  cases x with
  | nil => exact absurd rfl hx
  | cons s xs =>
      simp [Embedding.seqLen, Embedding.tokens, Tokenizer.call, batchSeqLen,
        Tokenizer.encodeOne_length]

/-- Row `b` of the position-id matrix, via row `b` of the token matrix. -/
theorem Embedding.posIds_get? (e : Embedding) (x : List String) (b : ℕ) :
    (e.posIds x).get? b =
      ((e.tokens x).get? b).map (fun _ => List.range (e.seqLen x)) := by
  unfold Embedding.posIds
  exact List.get?_map _ _ _

/-- Row `b` of the segment-id matrix, via row `b` of the token matrix. -/
theorem Embedding.segIds_get? (e : Embedding) (x : List String) (b : ℕ) :
    (e.segIds x).get? b =
      ((e.tokens x).get? b).map (fun row => row.map (fun _ => 0)) := by
  simp [Embedding.segIds, List.get?_map]

/-- `mapOpt` fails as soon as `f` fails on some element. -/
theorem mapOpt_none_of_mem {α β : Type} {f : α → Option β} {l : List α} {a : α}
    (ha : a ∈ l) (hfa : f a = none) : mapOpt f l = none := by
  induction l with
  | nil => cases ha
  | cons hd tl ih =>
      rcases List.mem_cons.mp ha with h | h
      · subst h
        simp [mapOpt, hfa]
      · cases hfd : f hd <;> simp [mapOpt, hfd, ih h]

/-- `mapOpt` succeeds when `f` succeeds on every element. -/
theorem mapOpt_some_of_forall {α β : Type} {f : α → Option β} {l : List α}
    (h : ∀ a ∈ l, (f a).isSome) : ∃ out, mapOpt f l = some out := by
  induction l with
  | nil => exact ⟨[], rfl⟩
  | cons hd tl ih =>
      obtain ⟨b, hb⟩ := Option.isSome_iff_exists.mp (h hd (List.mem_cons_self hd tl))
      obtain ⟨out, hout⟩ := ih (fun a ha => h a (List.mem_cons_of_mem hd ha))
      exact ⟨b :: out, by simp [mapOpt, hb, hout]⟩

/-- Pointwise description of a successful `mapOpt`: entry `i` of the
output is `f` applied to entry `i` of the input. -/
theorem mapOpt_get? {α β : Type} {f : α → Option β} {l : List α} {out : List β}
    (h : mapOpt f l = some out) : ∀ i : ℕ, out.get? i = (l.get? i).bind f := by
  induction l generalizing out with
  | nil =>
      simp [mapOpt] at h
      subst h
      intro i
      simp
  | cons hd tl ih =>
      rcases hfd : f hd with _ | b
      · simp [mapOpt, hfd] at h
      · rcases htl : mapOpt f tl with _ | bs
        · simp [mapOpt, hfd, htl] at h
        · simp [mapOpt, hfd, htl] at h
          subst h
          intro i
          cases i with
          | zero => simp [hfd]
          | succ n => simpa using ih htl n

/-- Pointwise description of a successful `zipStrict`: entry `i` of the
output combines the entries `i` of the two inputs. -/
theorem zipStrict_get? {α β γ : Type} {f : α → β → Option γ} :
    ∀ {as : List α} {bs : List β} {cs : List γ},
      zipStrict f as bs = some cs → ∀ i : ℕ,
        cs.get? i = (as.get? i).bind (fun a => (bs.get? i).bind (fun b => f a b))
  | [], [], cs, h, i => by
      simp [zipStrict] at h
      subst h
      simp
  | [], _ :: _, cs, h, i => by simp [zipStrict] at h
  | _ :: _, [], cs, h, i => by simp [zipStrict] at h
  | a :: as, b :: bs, cs, h, i => by
      rcases hab : f a b with _ | c
      · simp [zipStrict, hab] at h
      · rcases hrest : zipStrict f as bs with _ | cs'
        · simp [zipStrict, hab, hrest] at h
        · simp [zipStrict, hab, hrest] at h
          subst h
          cases i with
          | zero => simp [hab]
          | succ n => simpa using zipStrict_get? hrest n

/-- A successful lookup into `range n` returns the index itself. -/
theorem range_get?_inv {n i j : ℕ} (h : (List.range n).get? i = some j) : j = i := by
  rcases lt_or_ge i n with hlt | hge
  · rw [List.get?_range hlt] at h
    exact (Option.some_inj.mp h).symm
  · rw [List.get?_len_le (by simpa using hge)] at h
    cases h

/-- A fresh `nn.Embedding(rows, cols)` weight matrix has `rows` rows. -/
theorem mkTable_length (r c : ℕ) (w : ℕ → ℕ → ℤ) : (mkTable r c w).length = r := by
  simp [mkTable]

/-- Row lookup in a fresh weight matrix: defined exactly below the row
count, out of range at and above it. -/
theorem mkTable_get? (r c : ℕ) (w : ℕ → ℕ → ℤ) (i : ℕ) :
    (mkTable r c w).get? i =
      if i < r then some ((List.range c).map (w i)) else none := by
  by_cases h : i < r
  · simp only [mkTable, List.get?_map, List.get?_range h, Option.map_some', if_pos h]
  · rw [if_neg h]
    apply List.get?_len_le
    simp only [mkTable_length]
    omega

/-- `forward` succeeds exactly when its four fallible steps succeed, and
the result is the normalized final sum. -/
theorem Embedding.forward_ok (e : Embedding) (x : List String)
    (y : List (List (List ℤ))) :
    e.forward x = .ok y ↔
      ∃ pe s1 se s2,
        tableLookup e.pos_embed (e.posIds x) = some pe ∧
        tenAdd (e.bert_model (e.tokens x)) pe = some s1 ∧
        tableLookup e.seg_embed (e.segIds x) = some se ∧
        tenAdd s1 se = some s2 ∧
        y = s2.map (fun mat => mat.map e.norm) := by
  unfold Embedding.forward
  rcases h1 : tableLookup e.pos_embed (e.posIds x) with _ | pe
  · simp [h1]
  · rcases h2 : tenAdd (e.bert_model (e.tokens x)) pe with _ | s1
    · simp [h1, h2]
    · rcases h3 : tableLookup e.seg_embed (e.segIds x) with _ | se
      · simp [h1, h2, h3]
      · rcases h4 : tenAdd s1 se with _ | s2
        · simp [h1, h2, h3, h4]
        · simp [h1, h2, h3, h4, eq_comm]

/-- `forward` raises the position-table index error exactly when the
position lookup fails. -/
theorem Embedding.forward_pos_error (e : Embedding) (x : List String) :
    e.forward x = .error .posIndexOutOfRange ↔
      tableLookup e.pos_embed (e.posIds x) = none := by
  unfold Embedding.forward
  rcases h1 : tableLookup e.pos_embed (e.posIds x) with _ | pe
  · simp
  · rcases h2 : tenAdd (e.bert_model (e.tokens x)) pe with _ | s1
    · simp [h2]
    · rcases h3 : tableLookup e.seg_embed (e.segIds x) with _ | se
      · simp [h2, h3]
      · rcases h4 : tenAdd s1 se with _ | s2 <;> simp [h2, h3, h4]

/-- Claim C1, evaluation of the code at the failing input: with
`maxlen = 5` and `d_model = 4`, the tokenization step of `forward` gives
every sequence length exactly `d_model = 4`, not `maxlen = 5` (the
position table really has `maxlen = 5` rows), because the source passes
`max_length=self.d_model` to the tokenizer. -/
theorem C1_tokenizes_to_d_model_not_to_maxlen :
    (Embedding.tokens embDemo demoX).map List.length = [embDemo.d_model] ∧
    embDemo.d_model = 4 ∧ embDemo.pos_embed.length = 5 ∧ (4 : ℕ) ≠ 5 := by
  decide

/-- Claim C2, evaluation of the code at the failing input: on the spec's
example (batch `["the cat sat"]`, `maxlen = 5`, `d_model = 4`, encoder
hidden width 4) `forward` succeeds with output shape `[1, 4, 4]`, not the
`[1, 5, 4]` the claim states. -/
theorem C2_output_shape_is_1_4_4_not_1_5_4 :
    (embDemo.forward demoX).map shape3 = .ok (1, 4, 4) ∧
    embDemo.pos_embed.length = 5 ∧ ((1, 4, 4) : ℕ × ℕ × ℕ) ≠ (1, 5, 4) := by
  refine ⟨rfl, rfl, by decide⟩

/-- Claim C7: `forward` is deterministic — invoking it a second time on
the same input, with the instance state as left by the first invocation,
returns a result identical to the first invocation's. -/
theorem C7_forward_deterministic (e : Embedding) (x : List String) :
    (Embedding.forwardS ((Embedding.forwardS e x).2) x).1 =
      (Embedding.forwardS e x).1 :=
  rfl

/-- Claim C8, evaluation of the code at the failing input: with
`maxlen = 1 < d_model = 2`, `forward` fails with an index-out-of-range
error coming from the position-table lookup even though every segment
identifier it generates is `0`, a valid index into the size-2 segment
table — refuting the claim that an index-out-of-range failure occurs only
when a segment identifier exceeds the segment table's size. -/
theorem C8_index_error_without_segment_overflow :
    embDemo2.forward demoX = .error .posIndexOutOfRange ∧
    (∀ row ∈ embDemo2.segIds demoX, ∀ i ∈ row, i < 2) := by
  refine ⟨rfl, by decide⟩

/-- Claim C9: `forward` has no side effects — the instance (its tables,
its normalization parameters and every other field) is unchanged by the
call. -/
theorem C9_forward_leaves_instance_unchanged (e : Embedding) (x : List String) :
    (Embedding.forwardS e x).2 = e :=
  rfl

/-- Claim C10: the result of `forward` does not depend on the
`vocab_size` constructor argument — two instances built with different
`vocab_size` but identical `maxlen`, `d_model`, collaborators, table
weights and normalization agree on every input. -/
theorem C10_vocab_size_never_used (v1 v2 maxlen d_model : ℕ) (tok : Tokenizer)
    (bert : List (List ℕ) → List (List (List ℤ))) (posW segW : ℕ → ℕ → ℤ)
    (normF : List ℤ → List ℤ) (x : List String) :
    (Embedding.init v1 maxlen d_model tok bert posW segW normF).forward x =
      (Embedding.init v2 maxlen d_model tok bert posW segW normF).forward x :=
  rfl

/-- Claim C3: on every nonempty batch, the position indices `forward`
looks up are `0 .. seq_len - 1` with `seq_len = d_model` (the source
tokenizes with `max_length=self.d_model`), against a position table of
`maxlen` rows — so `forward` raises the position index-out-of-range
error precisely when `d_model > maxlen`, and the position lookup never
raises when `d_model ≤ maxlen`. -/
theorem C3_position_error_iff_maxlen_lt_d_model (v maxlen d_model : ℕ)
    (tok : Tokenizer) (bert : List (List ℕ) → List (List (List ℤ)))
    (posW segW : ℕ → ℕ → ℤ) (normF : List ℤ → List ℤ) (x : List String)
    (hx : x ≠ []) :
    ((Embedding.init v maxlen d_model tok bert posW segW normF).forward x =
        .error .posIndexOutOfRange) ↔ maxlen < d_model := by
  rw [Embedding.forward_pos_error]
  have hpos : (Embedding.init v maxlen d_model tok bert posW segW normF).pos_embed =
      mkTable maxlen d_model posW := rfl
  have hseq : (Embedding.init v maxlen d_model tok bert posW segW normF).seqLen x =
      d_model :=
    Embedding.seqLen_of_ne_nil _ x hx
  rw [hpos]
  unfold tableLookup
  constructor
  · intro h
    by_contra hle
    push_neg at hle
    obtain ⟨pe, hpe⟩ :
        ∃ pe, mapOpt (fun row => mapOpt (fun i => (mkTable maxlen d_model posW).get? i) row)
          ((Embedding.init v maxlen d_model tok bert posW segW normF).posIds x) = some pe := by
      apply mapOpt_some_of_forall
      intro row hrow
      simp only [Embedding.posIds, List.mem_map] at hrow
      obtain ⟨t, _, rfl⟩ := hrow
      obtain ⟨out, hout⟩ := mapOpt_some_of_forall
        (f := fun i => (mkTable maxlen d_model posW).get? i)
        (l := List.range ((Embedding.init v maxlen d_model tok bert posW segW normF).seqLen x))
        (by
          intro i hi
          rw [List.mem_range, hseq] at hi
          show ((mkTable maxlen d_model posW).get? i).isSome = true
          rw [mkTable_get?, if_pos (lt_of_lt_of_le hi hle)]
          rfl)
      simp only [hout]
      rfl
    rw [hpe] at h
    cases h
  · intro hlt
    obtain ⟨s, xs, rfl⟩ : ∃ s xs, x = s :: xs := by
      cases x with
      | nil => exact absurd rfl hx
      | cons s xs => exact ⟨s, xs, rfl⟩
    apply mapOpt_none_of_mem
      (a := List.range ((Embedding.init v maxlen d_model tok bert posW segW normF).seqLen (s :: xs)))
    · show List.range ((Embedding.init v maxlen d_model tok bert posW segW normF).seqLen (s :: xs)) ∈
        ((Embedding.init v maxlen d_model tok bert posW segW normF).tokens (s :: xs)).map
          (fun _ =>
            List.range ((Embedding.init v maxlen d_model tok bert posW segW normF).seqLen (s :: xs)))
      have htok : (Embedding.init v maxlen d_model tok bert posW segW normF).tokens (s :: xs) =
          (Embedding.init v maxlen d_model tok bert posW segW normF).tokenizer.encodeOne
              (Embedding.init v maxlen d_model tok bert posW segW normF).d_model s ::
            xs.map ((Embedding.init v maxlen d_model tok bert posW segW normF).tokenizer.encodeOne
              (Embedding.init v maxlen d_model tok bert posW segW normF).d_model) := rfl
      rw [htok, List.map_cons]
      exact List.mem_cons_self _ _
    · apply mapOpt_none_of_mem (a := maxlen)
      · rw [List.mem_range, hseq]
        exact hlt
      · rw [mkTable_get?, if_neg (lt_irrefl maxlen)]

/-- Witness for C3 at a concrete input: `maxlen = 1 < d_model = 2`,
nonempty batch, and the iff holds there. -/
theorem C3_position_error_witness :
    ((Embedding.init 30522 1 2 tokDemo2 bertDemo (fun i _ => (i : ℤ))
        (fun i _ => (i : ℤ)) id).forward ["a"] = .error .posIndexOutOfRange) ↔ 1 < 2 :=
  C3_position_error_iff_maxlen_lt_d_model 30522 1 2 tokDemo2 bertDemo
    (fun i _ => (i : ℤ)) (fun i _ => (i : ℤ)) id ["a"] (by decide)

/-- Claim C4: every vector `forward` returns — batch element `b`, token
position `i` — is the normalization transform applied to the elementwise
sum of the encoder's hidden vector at `(b, i)`, row `i` of the position
table and row `0` of the segment table, per the spec-side reference
`composedEmbeddingSpec`. -/
theorem C4_output_entry_is_normed_threefold_sum (e : Embedding)
    (x : List String) (y : List (List (List ℤ))) (yb : List (List ℤ))
    (v : List ℤ) (b i : ℕ) (hy : e.forward x = .ok y)
    (hb : y.get? b = some yb) (hv : yb.get? i = some v) :
    composedEmbeddingSpec e x b i = some v := by
  obtain ⟨pe, s1, se, s2, hpe, h1, hse, h2, rfl⟩ := (Embedding.forward_ok e x y).mp hy
  rw [List.get?_map] at hb
  obtain ⟨sb, hsb, rfl⟩ := Option.map_eq_some'.mp hb
  rw [List.get?_map] at hv
  obtain ⟨w, hw, rfl⟩ := Option.map_eq_some'.mp hv
  unfold tenAdd at h1 h2
  have h2b := zipStrict_get? h2 b
  rw [hsb] at h2b
  obtain ⟨m1, hm1, hrest⟩ := Option.bind_eq_some.mp h2b.symm
  obtain ⟨m2, hm2, hmadd⟩ := Option.bind_eq_some.mp hrest
  unfold matAdd at hmadd
  have hsbi := zipStrict_get? hmadd i
  rw [hw] at hsbi
  obtain ⟨r1, hr1, hrest2⟩ := Option.bind_eq_some.mp hsbi.symm
  obtain ⟨r2, hr2, hvadd⟩ := Option.bind_eq_some.mp hrest2
  have h1b := zipStrict_get? h1 b
  rw [hm1] at h1b
  obtain ⟨tm, htm, hrest3⟩ := Option.bind_eq_some.mp h1b.symm
  obtain ⟨pm, hpm, htpadd⟩ := Option.bind_eq_some.mp hrest3
  unfold matAdd at htpadd
  have hm1i := zipStrict_get? htpadd i
  rw [hr1] at hm1i
  obtain ⟨tv, htv, hrest4⟩ := Option.bind_eq_some.mp hm1i.symm
  obtain ⟨pv, hpv, htpv⟩ := Option.bind_eq_some.mp hrest4
  unfold tableLookup at hpe hse
  have hpeb := mapOpt_get? hpe b
  rw [hpm] at hpeb
  obtain ⟨prow, hprow, hpm'⟩ := Option.bind_eq_some.mp hpeb.symm
  have hpmi := mapOpt_get? hpm' i
  rw [hpv] at hpmi
  obtain ⟨j, hj, hjv⟩ := Option.bind_eq_some.mp hpmi.symm
  have hji : j = i := by
    rw [Embedding.posIds_get?] at hprow
    obtain ⟨trow, _, hpr⟩ := Option.map_eq_some'.mp hprow
    rw [← hpr] at hj
    exact range_get?_inv hj
  rw [hji] at hjv
  have hseb := mapOpt_get? hse b
  rw [hm2] at hseb
  obtain ⟨srow, hsrow, hm2'⟩ := Option.bind_eq_some.mp hseb.symm
  have hsei := mapOpt_get? hm2' i
  rw [hr2] at hsei
  obtain ⟨k, hk, hkv⟩ := Option.bind_eq_some.mp hsei.symm
  have hk0 : k = 0 := by
    rw [Embedding.segIds_get?] at hsrow
    obtain ⟨trow, _, hsr⟩ := Option.map_eq_some'.mp hsrow
    rw [← hsr, List.get?_map] at hk
    obtain ⟨a, _, hka⟩ := Option.map_eq_some'.mp hk
    exact hka.symm
  subst hk0
  simp only [List.get?_eq_getElem?] at htm htv hjv hkv
  unfold composedEmbeddingSpec
  simp [htm, htv, hjv, hkv, htpv, hvadd]

/-- Witness for C4 at the concrete example instance: a successful call,
with the entry at batch 0, position 0, matching the reference value. -/
theorem C4_output_entry_witness :
    embDemo.forward demoX = .ok demoY ∧
    demoY.get? 0 = some [[7, 1, 0, 0], [8, 2, 1, 1], [9, 3, 2, 2], [3, 4, 3, 3]] ∧
    ([[7, 1, 0, 0], [8, 2, 1, 1], [9, 3, 2, 2], [3, 4, 3, 3]] :
        List (List ℤ)).get? 0 = some [7, 1, 0, 0] ∧
    composedEmbeddingSpec embDemo demoX 0 0 = some [7, 1, 0, 0] :=
  ⟨by rfl, by rfl, by rfl,
    C4_output_entry_is_normed_threefold_sum embDemo demoX demoY
      [[7, 1, 0, 0], [8, 2, 1, 1], [9, 3, 2, 2], [3, 4, 3, 3]] [7, 1, 0, 0] 0 0
      (by rfl) (by rfl) (by rfl)⟩

/-- Claim C5: on every nonempty batch, every row of the derived
position-id matrix is exactly `[0, 1, ..., seq_len - 1]` (with
`seq_len = d_model`), identical for every sequence in the batch, and
consequently the position-embedding contribution at a position is
identical across all batch elements, whatever their content. -/
theorem C5_position_ids_identical_across_batch (e : Embedding)
    (x : List String) (hx : x ≠ []) :
    (∀ b, b < x.length → (e.posIds x).get? b = some (List.range e.d_model)) ∧
    (∀ pe, tableLookup e.pos_embed (e.posIds x) = some pe →
      ∀ b1 b2 i, b1 < x.length → b2 < x.length →
        (pe.get? b1).bind (fun r => r.get? i) =
          (pe.get? b2).bind (fun r => r.get? i)) := by
  have hrow : ∀ b, b < x.length →
      (e.posIds x).get? b = some (List.range e.d_model) := by
    intro b hb
    rw [Embedding.posIds_get?, Embedding.tokens_get?, List.get?_eq_get hb]
    simp [Embedding.seqLen_of_ne_nil e x hx]
  refine ⟨hrow, ?_⟩
  intro pe hpe b1 b2 i hb1 hb2
  unfold tableLookup at hpe
  rw [mapOpt_get? hpe b1, mapOpt_get? hpe b2, hrow b1 hb1, hrow b2 hb2]

/-- Witness for C5 at the concrete example instance and batch. -/
theorem C5_position_ids_witness :
    (∀ b, b < demoX.length →
      (embDemo.posIds demoX).get? b = some (List.range embDemo.d_model)) ∧
    (∀ pe, tableLookup embDemo.pos_embed (embDemo.posIds demoX) = some pe →
      ∀ b1 b2 i, b1 < demoX.length → b2 < demoX.length →
        (pe.get? b1).bind (fun r => r.get? i) =
          (pe.get? b2).bind (fun r => r.get? i)) :=
  C5_position_ids_identical_across_batch embDemo demoX (by decide)

/-- Claim C6: every segment id `forward` derives is `0` (segment id 1 is
never produced), and the segment-table lookup therefore succeeds with the
same vector — row 0 of the segment table — at every token position of
every sequence in the call. -/
theorem C6_segment_ids_all_zero_row0_contribution (v maxlen d_model : ℕ)
    (tok : Tokenizer) (bert : List (List ℕ) → List (List (List ℤ)))
    (posW segW : ℕ → ℕ → ℤ) (normF : List ℤ → List ℤ) (x : List String) :
    (∀ row ∈ (Embedding.init v maxlen d_model tok bert posW segW normF).segIds x,
      ∀ i ∈ row, i = 0) ∧
    (∃ se, tableLookup
        (Embedding.init v maxlen d_model tok bert posW segW normF).seg_embed
        ((Embedding.init v maxlen d_model tok bert posW segW normF).segIds x) =
          some se ∧
      ∀ b r, se.get? b = some r → ∀ i vec, r.get? i = some vec →
        (Embedding.init v maxlen d_model tok bert posW segW normF).seg_embed.get? 0 =
          some vec) := by
  have h0 : (Embedding.init v maxlen d_model tok bert posW segW normF).seg_embed.get? 0 =
      some ((List.range d_model).map (fun j => segW 0 j)) := by
    show (mkTable 2 d_model segW).get? 0 = _
    rw [mkTable_get?, if_pos (by omega)]
  constructor
  · intro row hrow i hi
    simp only [Embedding.segIds, List.mem_map] at hrow
    obtain ⟨t, _, rfl⟩ := hrow
    simp only [List.mem_map] at hi
    obtain ⟨a, _, h⟩ := hi
    exact h.symm
  · obtain ⟨se, hse⟩ :
        ∃ se, tableLookup
          (Embedding.init v maxlen d_model tok bert posW segW normF).seg_embed
          ((Embedding.init v maxlen d_model tok bert posW segW normF).segIds x) =
            some se := by
      unfold tableLookup
      apply mapOpt_some_of_forall
      intro row hrow
      simp only [Embedding.segIds, List.mem_map] at hrow
      obtain ⟨t, _, rfl⟩ := hrow
      obtain ⟨out, hout⟩ := mapOpt_some_of_forall
        (f := fun i =>
          (Embedding.init v maxlen d_model tok bert posW segW normF).seg_embed.get? i)
        (l := t.map (fun _ => (0 : ℕ)))
        (by
          intro j hj
          simp only [List.mem_map] at hj
          obtain ⟨a, _, hj0⟩ := hj
          show ((Embedding.init v maxlen d_model tok bert posW segW normF).seg_embed.get? j).isSome =
            true
          rw [← hj0, h0]
          rfl)
      simp only [hout]
      rfl
    refine ⟨se, hse, ?_⟩
    intro b r hb i vec hvec
    unfold tableLookup at hse
    have hseb := mapOpt_get? hse b
    rw [hb] at hseb
    obtain ⟨row, hrow, hinner⟩ := Option.bind_eq_some.mp hseb.symm
    have hri := mapOpt_get? hinner i
    rw [hvec] at hri
    obtain ⟨j, hj, hjv⟩ := Option.bind_eq_some.mp hri.symm
    have hj0 : j = 0 := by
      rw [Embedding.segIds_get?] at hrow
      obtain ⟨t, _, hteq⟩ := Option.map_eq_some'.mp hrow
      rw [← hteq, List.get?_map] at hj
      obtain ⟨a, _, h⟩ := Option.map_eq_some'.mp hj
      exact h.symm
    rw [hj0] at hjv
    exact hjv
